import Mathlib

/-!
# azure-sub: a verification development

A shallow embedding of `azure-sub.go` (a subdomain enumerator: candidate
generator, HTTPS probe, worker pool, collector) and theorems about it.

Conventions of the embedding.

* A Go `string` is a Lean `String`; a file's content is the `List Char` of its
  text (the file is taken to be valid UTF-8, sizes are counted in UTF-8 bytes).
* Calls into the Go standard library are modelled after their documented
  behaviour (`fmt.Sprintf` for the verbs this program uses, `bufio.Scanner`
  with the default `ScanLines` split function and its 64 KiB token limit).
* Everything the environment decides (the result of the HTTPS GET, of
  `os.Open`, `os.OpenFile` and `WriteString`) is an explicit argument.
* The goroutines of `main` are a labelled transition system: `step` is one
  atomic action of one goroutine, `Reachable` its reflexive-transitive closure
  from the state in which all goroutines have been launched.
-/

namespace AzureSub

/-! ## `fmt` -/

/-- An operand of a `fmt` call: this program formats strings (hostnames,
error texts) and `int`s (status codes, the candidate count). -/
inductive Arg where
  | str (s : String)
  | int (n : Int)
  deriving DecidableEq, Repr

/-- Go type name of an operand, for the bad-verb output of `fmt`. -/
def Arg.typeName : Arg → String
  | .str _ => "string"
  | .int _ => "int"

/-- Default rendering of an operand (`%v`). -/
def Arg.render : Arg → String
  | .str s => s
  | .int n => toString n

/-- One verb applied to one operand: `%s` and `%v` print a string as it is,
`%d` and `%v` print an `int` in decimal; any other pairing gives the
`%!verb(type=value)` text of `fmt`. -/
def formatVerb (verb : Char) (a : Arg) : List Char :=
  match verb, a with
  | 's', .str s => s.data
  | 'v', .str s => s.data
  | 'd', .int n => (toString n).data
  | 'v', .int n => (toString n).data
  | _, a => '%' :: '!' :: verb :: '(' :: (a.typeName.data ++ '=' :: (a.render.data ++ [')']))

/-- The formatting loop of `fmt.Sprintf` over the format's characters: text is
copied, `%%` is a percent sign, `%` followed by a verb consumes one operand. -/
def sprintfAux : List Char → List Arg → List Char
  | [], _ => []
  | '%' :: '%' :: rest, args => '%' :: sprintfAux rest args
  | '%' :: verb :: rest, a :: args => formatVerb verb a ++ sprintfAux rest args
  | '%' :: verb :: rest, [] =>
      '%' :: '!' :: verb :: "(MISSING)".data ++ sprintfAux rest []
  | c :: rest, args => c :: sprintfAux rest args

/-- The `fmt.Sprintf` of Go, for the verbs `%s`, `%d`, `%v`. -/
def sprintf (format : String) (args : List Arg) : String :=
  String.mk (sprintfAux format.data args)

/-! ## Configuration constants and tables -/

def wordlistPath : String :=
  "/usr/share/seclists/Discovery/DNS/subdomains-top1million-110000.txt"

def numWorkers : Nat := 50

/-- Capacity of the `jobs` channel: `make(chan string, 1000)`. -/
def jobsCapacity : Nat := 1000

/-- Capacity of `validChan`: `make(chan string, 100)`. -/
def validCapacity : Nat := 100

def baseURLs : List String :=
  [ "azurewebsites.net",
    "blob.core.windows.net",
    "queue.core.windows.net",
    "file.core.windows.net",
    "table.core.windows.net",
    "scm.azurewebsites.net" ]

/-- The four permutation functions, in the order of the source. -/
def permutations : List (String → String → String) :=
  [ fun word company => word ++ "-" ++ company,
    fun word company => company ++ "-" ++ word,
    fun word company => word ++ company,
    fun word company => company ++ word ]

/-! ## `checkSubdomain` -/

/-- What `client.Get(url)` returns: an error, or a response with its status
code. -/
inductive GetResult where
  | err (msg : String)
  | resp (statusCode : Int)
  deriving DecidableEq, Repr

def StatusOK : Int := 200

def StatusFound : Int := 302

/-- The function `checkSubdomain`; `client` stands for `client.Get`, from the
URL to what the request returns. The result is the value sent on `validChan`,
if one is sent. -/
def checkSubdomain (client : String → GetResult) (subdomain : String) : Option String :=
  let url := "https://" ++ subdomain
  match client url with
  | .err _ => none
  | .resp statusCode =>
      if statusCode = StatusOK ∨ statusCode = StatusFound then
        let validResult := sprintf "[VALID] %s (%d)" [.str subdomain, .int statusCode]
        some validResult
      else
        none

/-! ## The generation loop of `main` -/

/-- What the generation loop has done: the values it has sent on `jobs`, oldest
first, and its counter. -/
structure Producer where
  sent : List String
  count : Nat
  deriving DecidableEq, Repr

/-- The three nested `for ... range` loops of `main` in program order, each
`jobs <- subdomain; count++` recorded in the `Producer`. (`count` is a Go
`int`; it stays below `24 * len(words)`, far from `2^63` for any word list
that fits in memory, so it is a `Nat` here.) -/
def generate (bases words : List String) (company : String) : Producer :=
  bases.foldl (fun st base =>
    words.foldl (fun st word =>
      permutations.foldl (fun st permute =>
        let subdomain := permute word company ++ "." ++ base
        { sent := st.sent ++ [subdomain], count := st.count + 1 }) st) st)
    { sent := [], count := 0 }

/-- The progress line of `main`: `fmt.Printf("[*] Testing %d subdomains...\n", count)`. -/
def progressLine (count : Nat) : String :=
  sprintf "[*] Testing %d subdomains...\n" [.int count]

/-- The candidate sequence as the specification words it: base suffixes outer,
words middle, the four templates word-company, company-word, wordcompany,
companyword inner. -/
def specCandidates (bases words : List String) (company : String) : List String :=
  bases.flatMap fun base =>
    words.flatMap fun word =>
      [ word ++ "-" ++ company ++ "." ++ base,
        company ++ "-" ++ word ++ "." ++ base,
        word ++ company ++ "." ++ base,
        company ++ word ++ "." ++ base ]

/-! ## `readWordlist` -/

/-- The constant `bufio.MaxScanTokenSize`. -/
def maxScanTokenSize : Nat := 64 * 1024

/-- The helper `dropCR` of `bufio`: drops one terminal carriage return. -/
def dropCR (data : List Char) : List Char :=
  if data.getLast? = some '\r' then data.dropLast else data

/-- The text of `bufio.ErrTooLong`. -/
def errTooLong : String := "bufio.Scanner: token too long"

/-- A `bufio.Scanner` with the default split function `ScanLines`, run to the
end: the tokens returned by the successive calls of `Scan`/`Text`, and the
final `Err()`. `line` is the part of the current line already in the buffer.
A newline ends the line and yields `dropCR line`; at the end of the input a
non-empty rest is a last token, `dropCR line`; a line that fills the buffer
(`maxScanTokenSize` bytes without a newline) stops the scanner with
`ErrTooLong`. -/
def scanLines : List Char → List Char → List String × Option String
  | [], line => (if line = [] then [] else [String.mk (dropCR line)], none)
  | c :: rest, line =>
      if c = '\n' then
        let r := scanLines rest []
        (String.mk (dropCR line) :: r.1, r.2)
      else if maxScanTokenSize ≤ (String.mk (line ++ [c])).utf8ByteSize then
        ([], some errTooLong)
      else
        scanLines rest (line ++ [c])

/-- The function `readWordlist`; `fs` stands for `os.Open` followed by the
reads of the scanner: from a path to an error text or to the content of the
file. Returns `words` and the error, if any. -/
def readWordlist (fs : String → Except String (List Char)) (path : String) :
    List String × Option String :=
  match fs path with
  | .error err => ([], some err)
  | .ok content =>
      let scanned := scanLines content []
      let words := scanned.1.foldl
        (fun words line => if line ≠ "" then words ++ [line] else words) []
      (words, scanned.2)

/-- The word list as the specification words it: the content split at newline
characters, empty lines skipped, every other line kept as it is. -/
def specWords (content : List Char) : List String :=
  ((content.splitOn '\n').filter (fun line => line ≠ [])).map String.mk

/-- The word list with the end-of-line marker of `ScanLines`: the content
split at newline characters, one terminal carriage return removed from each
line, the lines that are then empty skipped. -/
def crWords (content : List Char) : List String :=
  (((content.splitOn '\n').map dropCR).filter (fun line => line ≠ [])).map String.mk

/-! ## `writeValidResults` -/

/-- The output of the process: the writes to standard output and to standard
error, and the arguments of the `WriteString` calls on `valid_subdomains.txt`,
each in order. -/
structure Sink where
  stdout : List String := []
  stderr : List String := []
  fileWrites : List String := []
  deriving DecidableEq, Repr

/-- The body of the `for result := range validChan` loop; `w` is the error
returned by `f.WriteString`, if it fails. -/
def writeResult (result : String) (w : Option String) (sink : Sink) : Sink :=
  let sink := { sink with stdout := sink.stdout ++ [result ++ "\n"] }
  let sink := { sink with fileWrites := sink.fileWrites ++ [result ++ "\n"] }
  match w with
  | none => sink
  | some err =>
      { sink with stderr := sink.stderr ++
          [sprintf "Error writing to valid_subdomains.txt: %v\n" [.str err]] }

/-- A run of the collector: the values it has received from `validChan` and
its output. -/
structure WriterRun where
  received : List String := []
  sink : Sink := {}
  deriving DecidableEq, Repr

/-- The function `writeValidResults`, run against a channel that delivers
`pending` and is then closed. `openErr` is the error of `os.OpenFile`, if it
fails; `writeErr k` is the error of the `k`-th `WriteString` call (from 0), if
it fails. -/
def writeValidResults (openErr : Option String) (pending : List String)
    (writeErr : Nat → Option String) : WriterRun :=
  match openErr with
  | some err =>
      { received := [],
        sink := { stderr := [sprintf "Error opening valid_subdomains.txt: %v\n" [.str err]] } }
  | none =>
      pending.foldl (fun run result =>
        { received := run.received ++ [result],
          sink := writeResult result (writeErr run.received.length) run.sink }) {}

/-! ## The start of `main` -/

/-- How `main` begins: it leaves through `os.Exit` after some output, or
through a run-time panic (`os.Args[0]` with no `os.Args`), or goes on to the
pipeline with a company name and a word list. -/
inductive Startup where
  | exit (stdout stderr : List String) (code : Nat)
  | indexPanic
  | run (company : String) (words : List String)
  deriving DecidableEq, Repr

/-- Lines 59-71 of `main`: `args` is `os.Args`, `fs` the file system as
`readWordlist` sees it. -/
def startup (args : List String) (fs : String → Except String (List Char)) : Startup :=
  if args.length ≠ 2 then
    match args with
    | [] => .indexPanic
    | prog :: _ => .exit [sprintf "Usage: %s <company_name>\n" [.str prog]] [] 1
  else
    let company := args.getD 1 ""
    match readWordlist fs wordlistPath with
    | (words, none) => .run company words
    | (_, some err) => .exit [] [sprintf "Error reading wordlist: %v\n" [.str err]] 1

/-! ## The pipeline of `main` as a transition system -/

/-- Where `main` is, once the goroutines are launched: in the generation loop
(and the `Printf` after it), at `close(jobs)`, at `wg.Wait()`, at
`close(validChan)`, at `writerWg.Wait()`, or at its end. -/
inductive MainPc where
  | generating
  | closeJobs
  | waitWorkers
  | closeValid
  | waitWriter
  | done
  deriving DecidableEq, Repr

/-- Where a worker goroutine is: at `range jobs`, inside `checkSubdomain`
waiting for `client.Get`, at the send `validChan <- validResult`, or returned
(its deferred `wg.Done()` has run). -/
inductive WorkerPc where
  | idle
  | inGet (subdomain : String)
  | sending (validResult : String)
  | exited
  deriving DecidableEq, Repr

/-- Where the writer goroutine is: at `os.OpenFile`, at `range validChan`, or
returned (its deferred `writerWg.Done()` has run). -/
inductive WriterPc where
  | opening
  | ranging
  | exited
  deriving DecidableEq, Repr

/-- The state of the pipeline. `todo` holds the sends the generation loop has
still to do; `jobs` and `validChan` are the buffers of the two channels,
oldest first; `wg` and `writerWg` are the counters of the two wait groups;
`probes` logs the hostnames passed to `checkSubdomain`, in call order. -/
structure Pipeline where
  todo : List String
  count : Nat
  mainPc : MainPc
  jobs : List String
  jobsClosed : Bool
  validChan : List String
  validClosed : Bool
  wg : Nat
  writerWg : Nat
  workers : List WorkerPc
  writer : WriterPc
  sink : Sink
  probes : List String
  deriving DecidableEq, Repr

/-- The state after `main` has launched `n` workers (`wg.Add(1)` each) and the
writer (`writerWg.Add(1)`) and before it sends the first candidate. The
source has `n = numWorkers`. -/
def initial (n : Nat) (words : List String) (company : String) : Pipeline :=
  { todo := (generate baseURLs words company).sent,
    count := 0,
    mainPc := .generating,
    jobs := [],
    jobsClosed := false,
    validChan := [],
    validClosed := false,
    wg := n,
    writerWg := 1,
    workers := List.replicate n .idle,
    writer := .opening,
    sink := {},
    probes := [] }

/-- One atomic action of one goroutine, with what the environment answers. -/
inductive Event where
  /-- The next action of `main`. -/
  | main
  /-- Worker `i` at `range jobs`: it receives a candidate and calls
  `checkSubdomain`, or returns when `jobs` is closed and drained. -/
  | workerNext (i : Nat)
  /-- The `client.Get` of worker `i` returns `r`. -/
  | workerGot (i : Nat) (r : GetResult)
  /-- The send of worker `i` on `validChan` completes. -/
  | workerSent (i : Nat)
  /-- The `os.OpenFile` of the writer returns, with an error or without. -/
  | writerOpen (err : Option String)
  /-- The writer at `range validChan`: it receives a result, prints it and
  writes it (`WriteString` returns `w`), or returns when `validChan` is closed
  and drained. -/
  | writerNext (w : Option String)
  deriving DecidableEq, Repr

/-- The action of `main` in state `s`; `none` when `main` is blocked (send on a
full `jobs`, `Wait` on a non-zero counter) or has ended. -/
def stepMain (s : Pipeline) : Option Pipeline :=
  match s.mainPc with
  | .generating =>
      match s.todo with
      | subdomain :: rest =>
          if s.jobs.length < jobsCapacity then
            some { s with jobs := s.jobs ++ [subdomain], count := s.count + 1, todo := rest }
          else none
      | [] =>
          some { s with
            sink := { s.sink with stdout := s.sink.stdout ++ [progressLine s.count] },
            mainPc := .closeJobs }
  | .closeJobs => some { s with jobsClosed := true, mainPc := .waitWorkers }
  | .waitWorkers => if s.wg = 0 then some { s with mainPc := .closeValid } else none
  | .closeValid => some { s with validClosed := true, mainPc := .waitWriter }
  | .waitWriter => if s.writerWg = 0 then some { s with mainPc := .done } else none
  | .done => none

/-- The transition function: the state after event `e`, `none` when the
goroutine of `e` is not at that action or is blocked. A worker receives the
oldest candidate of `jobs`; its send waits while `validChan` holds
`validCapacity` values (a send on a closed channel would panic: the machine
has no such step, and `closed_after_workers` shows no worker is left then). -/
def step (e : Event) (s : Pipeline) : Option Pipeline :=
  match e with
  | .main => stepMain s
  | .workerNext i =>
      match s.workers[i]? with
      | some .idle =>
          match s.jobs with
          | subdomain :: rest =>
              some { s with
                jobs := rest,
                probes := s.probes ++ [subdomain],
                workers := s.workers.set i (.inGet subdomain) }
          | [] =>
              if s.jobsClosed then
                some { s with workers := s.workers.set i .exited, wg := s.wg - 1 }
              else none
      | _ => none
  | .workerGot i r =>
      match s.workers[i]? with
      | some (.inGet subdomain) =>
          match checkSubdomain (fun _ => r) subdomain with
          | some validResult => some { s with workers := s.workers.set i (.sending validResult) }
          | none => some { s with workers := s.workers.set i .idle }
      | _ => none
  | .workerSent i =>
      match s.workers[i]? with
      | some (.sending validResult) =>
          if s.validChan.length < validCapacity ∧ s.validClosed = false then
            some { s with
              validChan := s.validChan ++ [validResult],
              workers := s.workers.set i .idle }
          else none
      | _ => none
  | .writerOpen err =>
      match s.writer with
      | .opening =>
          match err with
          | some msg =>
              some { s with
                sink := { s.sink with stderr := s.sink.stderr ++
                  [sprintf "Error opening valid_subdomains.txt: %v\n" [.str msg]] },
                writer := .exited,
                writerWg := s.writerWg - 1 }
          | none => some { s with writer := .ranging }
      | _ => none
  | .writerNext w =>
      match s.writer with
      | .ranging =>
          match s.validChan with
          | result :: rest => some { s with validChan := rest, sink := writeResult result w s.sink }
          | [] =>
              if s.validClosed then
                some { s with writer := .exited, writerWg := s.writerWg - 1 }
              else none
      | _ => none

/-- The states the pipeline can reach with `n` workers. -/
inductive Reachable (n : Nat) (words : List String) (company : String) : Pipeline → Prop where
  | start : Reachable n words company (initial n words company)
  | next {s t : Pipeline} (e : Event) :
      Reachable n words company s → step e s = some t → Reachable n words company t

/-- The state after a sequence of events, `none` if one of them cannot happen. -/
def run : List Event → Pipeline → Option Pipeline
  | [], s => some s
  | e :: es, s =>
      match step e s with
      | some t => run es t
      | none => none

/-- No goroutine can move: `main` is blocked or at its end, every worker is
blocked or has returned, and so has the writer. -/
def stuck (s : Pipeline) : Bool :=
  (stepMain s).isNone
  && s.workers.all (fun w =>
      match w with
      | .idle => s.jobs.isEmpty && !s.jobsClosed
      | .inGet _ => false
      | .sending _ => !(decide (s.validChan.length < validCapacity) && !s.validClosed)
      | .exited => true)
  && (match s.writer with
      | .opening => false
      | .ranging => s.validChan.isEmpty && !s.validClosed
      | .exited => true)

/-- The error lines of the writes `k, k+1, ...` of a run, in order. -/
def writeErrorLines (writeErr : Nat → Option String) (k : Nat) : Nat → List String
  | 0 => []
  | n + 1 =>
      (match writeErr k with
        | none => []
        | some err => ["Error writing to valid_subdomains.txt: " ++ err ++ "\n"])
      ++ writeErrorLines writeErr (k + 1) n

/-- A worker that has not returned. -/
def WorkerPc.running : WorkerPc → Bool
  | .exited => false
  | _ => true

/-- Number of workers that have not returned. -/
def live (ws : List WorkerPc) : Nat := ws.countP WorkerPc.running

/-- A progress line, whatever the number in it: a line that starts with
`[*] Testing `. -/
def isProgressLine (line : String) : Bool :=
  line.data.take 12 == "[*] Testing ".data

/-- A result line: it starts with `[V`, as every value `checkSubdomain` sends. -/
def IsResult (r : String) : Prop := ∃ t, r.data = '[' :: 'V' :: t

/-- The invariant of the pipeline with `n` workers and candidate sequence
`cands`: the candidates are split, in order, between the probes made, the
buffer of `jobs` and the sends still to do; `count` counts the sends done;
`wg` counts the workers that have not returned; a worker returns only once
`jobs` is closed and drained; the two channels are closed exactly from the
matching point of `main` on; the values in flight are result lines; and
standard output holds no progress line while `main` is in the generation
loop and exactly one, with the number of candidates, afterwards. -/
structure Inv (n : Nat) (cands : List String) (s : Pipeline) : Prop where
  conserve : s.probes ++ s.jobs ++ s.todo = cands
  count_eq : s.count = (s.probes ++ s.jobs).length
  nworkers : s.workers.length = n
  wg_eq : s.wg = live s.workers
  drained : s.wg < n → s.jobs = [] ∧ s.jobsClosed = true
  closed_pc : s.jobsClosed = true ↔ (s.mainPc ≠ .generating ∧ s.mainPc ≠ .closeJobs)
  todo_pc : s.mainPc ≠ .generating → s.todo = []
  wg_pc : (s.mainPc = .closeValid ∨ s.mainPc = .waitWriter ∨ s.mainPc = .done) → s.wg = 0
  vclosed_pc : s.validClosed = true ↔ (s.mainPc = .waitWriter ∨ s.mainPc = .done)
  chan_results : ∀ r ∈ s.validChan, IsResult r
  send_results : ∀ r, WorkerPc.sending r ∈ s.workers → IsResult r
  progress : s.sink.stdout.filter isProgressLine
      = if s.mainPc = .generating then [] else [progressLine cands.length]

/-! ## Termination measure -/

/-- The counter of `writerWg` is 1 until the writer returns. -/
def WriterInv (s : Pipeline) : Prop :=
  s.writerWg = if s.writer = .exited then 0 else 1

/-- Weight of a worker in `stepsLeft`: the actions it still has to take for the
candidate it holds, and its return. -/
def WorkerPc.weight : WorkerPc → Nat
  | .idle => 1
  | .inGet _ => 4
  | .sending _ => 3
  | .exited => 0

/-- Weight of `main` in `stepsLeft`: the actions it still has to take after the
last send. -/
def MainPc.weight : MainPc → Nat
  | .generating => 5
  | .closeJobs => 4
  | .waitWorkers => 3
  | .closeValid => 2
  | .waitWriter => 1
  | .done => 0

/-- Weight of the writer in `stepsLeft`: the actions it still has to take
besides receiving results. -/
def WriterPc.weight : WriterPc → Nat
  | .opening => 2
  | .ranging => 1
  | .exited => 0

/-- A bound on the number of events that can still happen: every event lowers
it (`stepsLeft_step`). -/
def stepsLeft (s : Pipeline) : Nat :=
  6 * s.todo.length + 5 * s.jobs.length + (s.workers.map WorkerPc.weight).sum
    + s.validChan.length + s.mainPc.weight + s.writer.weight

/-! ## Runs used as examples -/

/-- A run in which a probe is made, answered and printed while `main` is still
in the generation loop. -/
def earlyProbeTrace : List Event :=
  [.main, .writerOpen none, .workerNext 0, .workerGot 0 (.resp 200), .workerSent 0,
   .writerNext none]

/-- Five words: 120 candidates. -/
def fiveWords : List String := ["admin", "test", "dev", "api", "www"]

/-- A run in which `os.OpenFile` fails and every probe is answered with 200:
`main` sends the 120 candidates, prints and closes `jobs`; the writer returns
on the error; worker 0 sends 100 results; workers 0 to 19 then each take one
of the last 20 candidates and reach their send; workers 20 to 49 return. -/
def deadlockTrace : List Event :=
  List.replicate 120 Event.main ++ [.main, .main, .writerOpen (some "permission denied")]
  ++ (List.replicate 100 [Event.workerNext 0, .workerGot 0 (.resp 200), .workerSent 0]).flatten
  ++ ((List.range 20).map fun i => [Event.workerNext i, .workerGot i (.resp 200)]).flatten
  ++ ((List.range 30).map fun i => Event.workerNext (i + 20))

/-- A complete run with one word: worker 0 probes the 24 candidates, the first
is answered with 200, the others fail; the result is written; the 50 workers
return, then the writer, then `main`. -/
def completeTrace : List Event :=
  List.replicate 24 Event.main ++ [.main, .main, .writerOpen none,
    .workerNext 0, .workerGot 0 (.resp 200), .workerSent 0, .writerNext none]
  ++ (List.replicate 23 [Event.workerNext 0, .workerGot 0 (.err "no such host")]).flatten
  ++ ((List.range 50).map fun i => Event.workerNext i)
  ++ [.main, .main, .writerNext none, .main]

/-- The state a trace leads to from the initial state (the initial state
itself if the trace cannot happen). -/
def stateAfter (n : Nat) (words : List String) (company : String) (es : List Event) : Pipeline :=
  (run es (initial n words company)).getD (initial n words company)

/-! ## Theorems -/

/-- `sprintf "[VALID] %s (%d)"` puts the hostname and the decimal status code
in the template. -/
theorem sprintf_valid (h : String) (code : Int) :
    sprintf "[VALID] %s (%d)" [.str h, .int code]
      = "[VALID] " ++ h ++ " (" ++ toString code ++ ")" := by
  apply String.ext
  simp [sprintf, sprintfAux, formatVerb, String.data_append]

/-- C1: for every hostname `h` and every outcome of the GET of
`"https://" ++ h`, `checkSubdomain` sends exactly one result,
`"[VALID] " ++ h ++ " (" ++ code ++ ")"` with the status code in decimal, when
the response has status 200 or 302, and sends nothing when the response has
any other status code or the request fails. -/
theorem checkSubdomain_sends (client : String → GetResult) (h : String) :
    (∀ code : Int, client ("https://" ++ h) = .resp code → code = 200 ∨ code = 302 →
        checkSubdomain client h = some ("[VALID] " ++ h ++ " (" ++ toString code ++ ")"))
    ∧ (client ("https://" ++ h) = .resp 200 →
        checkSubdomain client h = some ("[VALID] " ++ h ++ " (200)"))
    ∧ (client ("https://" ++ h) = .resp 302 →
        checkSubdomain client h = some ("[VALID] " ++ h ++ " (302)"))
    ∧ (∀ code : Int, client ("https://" ++ h) = .resp code → code ≠ 200 → code ≠ 302 →
        checkSubdomain client h = none)
    ∧ (∀ msg : String, client ("https://" ++ h) = .err msg →
        checkSubdomain client h = none) := by
  refine ⟨?_, ?_, ?_, ?_, ?_⟩
  · intro code hget hc
    simp [checkSubdomain, hget, StatusOK, StatusFound, hc, sprintf_valid]
  · intro hget
    have h200 : toString (200 : Int) = "200" := by decide
    simp only [checkSubdomain, hget, StatusOK, true_or, if_true, sprintf_valid, h200]
    congr 1
    apply String.ext
    simp [String.data_append]
  · intro hget
    have h302 : toString (302 : Int) = "302" := by decide
    simp only [checkSubdomain, hget, StatusFound, or_true, if_true, sprintf_valid, h302]
    congr 1
    apply String.ext
    simp [String.data_append]
  · intro code hget h1 h2
    simp [checkSubdomain, hget, StatusOK, StatusFound, h1, h2]
  · intro msg hget
    simp [checkSubdomain, hget]

/-- C1 at a concrete host: a 302 gives the result line, a 404 and a timeout
give nothing. -/
theorem checkSubdomain_sends_witness :
    checkSubdomain (fun _ => .resp 302) "admin-acme.azurewebsites.net"
        = some "[VALID] admin-acme.azurewebsites.net (302)"
    ∧ checkSubdomain (fun _ => .resp 404) "admin-acme.azurewebsites.net" = none
    ∧ checkSubdomain (fun _ => .err "timeout") "admin-acme.azurewebsites.net" = none :=
  ⟨(checkSubdomain_sends (fun _ => .resp 302) "admin-acme.azurewebsites.net").2.2.1 rfl,
   (checkSubdomain_sends (fun _ => .resp 404) "admin-acme.azurewebsites.net").2.2.2.1 404 rfl
      (by decide) (by decide),
   (checkSubdomain_sends (fun _ => .err "timeout") "admin-acme.azurewebsites.net").2.2.2.2
      "timeout" rfl⟩

/-! ### The generation loop -/

/-- Decimal of a natural number cast to `Int`. -/
theorem toString_natCast (n : Nat) : toString ((n : Nat) : Int) = toString n := rfl

theorem progressLine_eq (n : Nat) :
    progressLine n = "[*] Testing " ++ toString n ++ " subdomains...\n" := by
  apply String.ext
  simp [progressLine, sprintf, sprintfAux, formatVerb, String.data_append, toString_natCast]

/-- The innermost loop: the four templates of one word and one base. -/
theorem generate_inner (st : Producer) (word company base : String) :
    permutations.foldl (fun st permute =>
        ({ sent := st.sent ++ [permute word company ++ "." ++ base],
           count := st.count + 1 } : Producer)) st
      = { sent := st.sent ++
            [ word ++ "-" ++ company ++ "." ++ base,
              company ++ "-" ++ word ++ "." ++ base,
              word ++ company ++ "." ++ base,
              company ++ word ++ "." ++ base ],
          count := st.count + 4 } := by
  simp [permutations, List.foldl]

/-- The loop over the words of one base. -/
theorem generate_middle (words : List String) (st : Producer) (company base : String) :
    words.foldl (fun st word =>
        permutations.foldl (fun st permute =>
          ({ sent := st.sent ++ [permute word company ++ "." ++ base],
             count := st.count + 1 } : Producer)) st) st
      = { sent := st.sent ++ specCandidates [base] words company,
          count := st.count + words.length * 4 } := by
  induction words generalizing st with
  | nil => simp [specCandidates]
  | cons w ws ih =>
      rw [List.foldl_cons, generate_inner, ih]
      simp [specCandidates, List.flatMap_cons, List.length_cons]
      omega

theorem generate_outer (bases words : List String) (st : Producer) (company : String) :
    bases.foldl (fun st base =>
      words.foldl (fun st word =>
        permutations.foldl (fun st permute =>
          ({ sent := st.sent ++ [permute word company ++ "." ++ base],
             count := st.count + 1 } : Producer)) st) st) st
      = { sent := st.sent ++ specCandidates bases words company,
          count := st.count + bases.length * (words.length * 4) } := by
  induction bases generalizing st with
  | nil => simp [specCandidates]
  | cons b bs ih =>
      rw [List.foldl_cons, generate_middle, ih]
      simp [specCandidates, List.flatMap_cons, List.length_cons]
      ring

theorem generate_eq (bases words : List String) (company : String) :
    generate bases words company
      = { sent := specCandidates bases words company,
          count := bases.length * (words.length * 4) } := by
  have h := generate_outer bases words { sent := [], count := 0 } company
  simpa [generate] using h

theorem specCandidates_length (bases words : List String) (company : String) :
    (specCandidates bases words company).length = bases.length * (words.length * 4) := by
  induction bases with
  | nil => simp [specCandidates]
  | cons b bs ih =>
      have hb : ∀ ws : List String, (specCandidates [b] ws company).length = ws.length * 4 := by
        intro ws
        induction ws with
        | nil => simp [specCandidates]
        | cons w ws ihw =>
            simp [specCandidates, List.flatMap_cons] at ihw ⊢
            omega
      have hsplit : specCandidates (b :: bs) words company
          = specCandidates [b] words company ++ specCandidates bs words company := by
        simp [specCandidates, List.flatMap_cons]
      rw [hsplit, List.length_append, ih, hb]
      simp [List.length_cons]
      ring

/-- C2: for every company name and every word list, the sequence of
candidates the generation loop of `main` sends on `jobs` is the one of the
specification, base suffixes outer, words middle, the four templates inner
(for `baseURLs` and for any other list of base suffixes); with the words
`admin`, `test`, the company `acme` and the base suffix `example.net` it is the
eight hostnames of the end-to-end scenario, in that order. -/
theorem generate_order :
    (∀ (words : List String) (company : String),
      (generate baseURLs words company).sent = specCandidates baseURLs words company)
    ∧ (∀ (bases words : List String) (company : String),
      (generate bases words company).sent = specCandidates bases words company)
    ∧ (generate ["example.net"] ["admin", "test"] "acme").sent
        = [ "admin-acme.example.net", "acme-admin.example.net",
            "adminacme.example.net", "acmeadmin.example.net",
            "test-acme.example.net", "acme-test.example.net",
            "testacme.example.net", "acmetest.example.net" ] := by
  refine ⟨fun words company => by rw [generate_eq], fun bases words company => by rw [generate_eq], ?_⟩
  decide

/-- C3: for every word list, the number of candidates `main` sends on `jobs`
is `|baseURLs| * |words| * |permutations|`, that is `6 * |words| * 4`; the
counter `count` has that value, so the progress line is
`[*] Testing <6*|words|*4> subdomains...`; for the empty word list nothing is
sent and the line is `[*] Testing 0 subdomains...`. -/
theorem generate_count (words : List String) (company : String) :
    (generate baseURLs words company).sent.length
        = baseURLs.length * words.length * permutations.length
    ∧ (generate baseURLs words company).count = (generate baseURLs words company).sent.length
    ∧ (generate baseURLs words company).count = 6 * words.length * 4
    ∧ progressLine (generate baseURLs words company).count
        = "[*] Testing " ++ toString (6 * words.length * 4) ++ " subdomains...\n"
    ∧ (generate baseURLs [] company).sent = []
    ∧ progressLine (generate baseURLs [] company).count = "[*] Testing 0 subdomains...\n" := by
  have hb : baseURLs.length = 6 := rfl
  have hp : permutations.length = 4 := rfl
  have hc : (generate baseURLs words company).count = 6 * words.length * 4 := by
    rw [generate_eq, hb]; ring
  refine ⟨?_, ?_, hc, ?_, ?_, ?_⟩
  · rw [generate_eq, specCandidates_length, hb, hp]; ring
  · rw [generate_eq, specCandidates_length]
  · rw [hc, progressLine_eq]
  · rw [generate_eq]; simp [specCandidates]
  · have h0 : (generate baseURLs [] company).count = 0 := by rw [generate_eq]; simp
    rw [h0, progressLine_eq]; decide

/-! ### The word list -/

/-- The appending loop of `readWordlist` keeps the non-empty tokens. -/
theorem appendLoop_eq (tokens acc : List String) :
    tokens.foldl (fun words line => if line ≠ "" then words ++ [line] else words) acc
      = acc ++ tokens.filter (fun line => line ≠ "") := by
  induction tokens generalizing acc with
  | nil => simp
  | cons t ts ih =>
      rw [List.foldl_cons, ih]
      by_cases h : t = ""
      · simp [h, List.filter_cons]
      · simp [h, List.filter_cons]

theorem mk_ne_empty (l : List Char) : (String.mk l ≠ "") ↔ l ≠ [] := by
  constructor
  · intro h hl; exact h (by rw [hl])
  · intro h hl
    apply h
    have := congrArg String.data hl
    simpa using this

/-- A scanner that ends without error has returned, up to empty tokens, the
lines of `line ++ data` with their carriage return dropped. -/
theorem scanLines_spec (data line : List Char) (hline : ∀ c ∈ line, c ≠ '\n')
    (hok : (scanLines data line).2 = none) :
    (scanLines data line).1.filter (fun t => t ≠ "") = crWords (line ++ data) := by
  induction data generalizing line with
  | nil =>
      have hs : (line ++ []).splitOn '\n' = [line] := by
        rw [List.append_nil]
        exact List.splitOnP_eq_single _ _ (by simpa using hline)
      simp only [scanLines, crWords, hs]
      by_cases h1 : line = []
      · subst h1; simp [dropCR]
      · by_cases h2 : dropCR line = []
        · simp [h1, h2, List.filter_cons]
        · simp [h1, h2, List.filter_cons, mk_ne_empty]
  | cons c rest ih =>
      by_cases hc : c = '\n'
      · subst hc
        have hs : (line ++ '\n' :: rest).splitOn '\n' = line :: rest.splitOn '\n' :=
          List.splitOnP_first _ _ (by simpa using hline) '\n' (by simp) rest
        have hok' : (scanLines rest []).2 = none := by simpa [scanLines] using hok
        have ih' := ih [] (by simp) hok'
        simp only [List.nil_append, crWords] at ih'
        simp only [scanLines, if_true, crWords, hs, List.map_cons, List.filter_cons]
        rw [ih']
        by_cases h2 : dropCR line = []
        · simp [h2]
        · simp [h2, mk_ne_empty]
      · have hlong : ¬ maxScanTokenSize ≤ (String.mk (line ++ [c])).utf8ByteSize := by
          intro hl
          simp only [scanLines] at hok
          rw [if_neg hc, if_pos hl] at hok
          exact absurd hok (by simp)
        have hline' : ∀ x ∈ line ++ [c], x ≠ '\n' := by
          intro x hx
          rcases List.mem_append.mp hx with h | h
          · exact hline x h
          · simpa [List.mem_singleton.mp h] using hc
        have hstep : scanLines (c :: rest) line = scanLines rest (line ++ [c]) := by
          simp only [scanLines]
          rw [if_neg hc, if_neg hlong]
        rw [hstep] at hok ⊢
        rw [ih (line ++ [c]) hline' hok]
        simp

/-- C4 (amended): whenever `readWordlist` reads the file without error, the
words it returns are, in file order, the lines of the content (split at
newline characters) with one terminal carriage return removed from each, the
lines that are then empty skipped; nothing else is removed from a line. -/
theorem readWordlist_lines (fs : String → Except String (List Char)) (path : String)
    (content : List Char) (words : List String)
    (hfile : fs path = .ok content)
    (hread : readWordlist fs path = (words, none)) :
    words = crWords content := by
  simp only [readWordlist, hfile, appendLoop_eq, List.nil_append, Prod.mk.injEq] at hread
  obtain ⟨hw, he⟩ := hread
  rw [← hw]
  simpa using scanLines_spec content [] (by simp) he

/-- C4 (amended) on a file with leading and trailing blanks, carriage returns
inside and at the end of lines, empty lines and a last line without newline. -/
theorem readWordlist_lines_witness :
    readWordlist (fun _ => .ok " admin\t\r\n\r\n\nwww \rx\r\r\nlast".toList) wordlistPath
        = ([" admin\t", "www \rx\r", "last"], none)
    ∧ [" admin\t", "www \rx\r", "last"] = crWords " admin\t\r\n\r\n\nwww \rx\r\r\nlast".toList :=
  ⟨by decide,
   readWordlist_lines (fun _ => .ok " admin\t\r\n\r\n\nwww \rx\r\r\nlast".toList) wordlistPath
     _ _ rfl (by decide)⟩

/-- C4 fails as stated: for the file `www\r\n` the only line is `www\r`, which
the claim keeps character for character, and `readWordlist` returns `www`. -/
theorem readWordlist_drops_cr :
    readWordlist (fun _ => .ok ['w', 'w', 'w', '\r', '\n']) wordlistPath = (["www"], none)
    ∧ specWords ['w', 'w', 'w', '\r', '\n'] = ["www\r"]
    ∧ (readWordlist (fun _ => .ok ['w', 'w', 'w', '\r', '\n']) wordlistPath).1
        ≠ specWords ['w', 'w', 'w', '\r', '\n'] := by
  decide

/-! ### The collector -/

theorem sprintf_write_error (err : String) :
    sprintf "Error writing to valid_subdomains.txt: %v\n" [.str err]
      = "Error writing to valid_subdomains.txt: " ++ err ++ "\n" := by
  apply String.ext
  simp [sprintf, sprintfAux, formatVerb, String.data_append]

theorem sprintf_open_error (err : String) :
    sprintf "Error opening valid_subdomains.txt: %v\n" [.str err]
      = "Error opening valid_subdomains.txt: " ++ err ++ "\n" := by
  apply String.ext
  simp [sprintf, sprintfAux, formatVerb, String.data_append]

/-- The collector loop from any intermediate run. -/
theorem writeLoop_eq (pending : List String) (writeErr : Nat → Option String) (run : WriterRun) :
    pending.foldl (fun run result =>
        ({ received := run.received ++ [result],
           sink := writeResult result (writeErr run.received.length) run.sink } : WriterRun)) run
      = { received := run.received ++ pending,
          sink :=
            { stdout := run.sink.stdout ++ pending.map (fun r => r ++ "\n"),
              stderr := run.sink.stderr
                ++ writeErrorLines writeErr run.received.length pending.length,
              fileWrites := run.sink.fileWrites ++ pending.map (fun r => r ++ "\n") } } := by
  induction pending generalizing run with
  | nil => simp [writeErrorLines]
  | cons r rs ih =>
      rw [List.foldl_cons, ih]
      cases hw : writeErr run.received.length <;>
        simp [writeResult, hw, writeErrorLines, sprintf_write_error]

theorem writeErrorLines_eq (writeErr : Nat → Option String) (k n : Nat) :
    writeErrorLines writeErr k n
      = (List.range n).filterMap (fun i =>
          (writeErr (k + i)).map
            (fun err => "Error writing to valid_subdomains.txt: " ++ err ++ "\n")) := by
  induction n generalizing k with
  | zero => simp [writeErrorLines]
  | succ n ih =>
      rw [writeErrorLines, ih, List.range_succ_eq_map, List.filterMap_cons, List.filterMap_map]
      have hfun : (fun i => (writeErr (k + 1 + i)).map
            (fun err => "Error writing to valid_subdomains.txt: " ++ err ++ "\n"))
          = ((fun i => (writeErr (k + i)).map
            (fun err => "Error writing to valid_subdomains.txt: " ++ err ++ "\n")) ∘ Nat.succ) := by
        funext i
        simp only [Function.comp, Nat.succ_eq_add_one]
        rw [Nat.add_assoc, Nat.add_comm 1 i]
      rw [hfun]
      cases hw : writeErr k <;> simp [hw]

/-- C5: with the log opened, for every sequence of results delivered before
`validChan` is closed and every pattern of failing writes, `writeValidResults`
receives every result, prints each as one line on standard output in arrival
order, passes the same line to `WriteString` for each result in the same
order, whether or not earlier writes failed, and writes one error line per
failed write on standard error. -/
theorem writeValidResults_drains (results : List String) (writeErr : Nat → Option String) :
    (writeValidResults none results writeErr).received = results
    ∧ (writeValidResults none results writeErr).sink.stdout = results.map (fun r => r ++ "\n")
    ∧ (writeValidResults none results writeErr).sink.fileWrites
        = results.map (fun r => r ++ "\n")
    ∧ (writeValidResults none results writeErr).sink.stderr
        = (List.range results.length).filterMap (fun k =>
            (writeErr k).map
              (fun err => "Error writing to valid_subdomains.txt: " ++ err ++ "\n")) := by
  simp [writeValidResults, writeLoop_eq, writeErrorLines_eq]

/-- C10: when `valid_subdomains.txt` cannot be opened, `writeValidResults`
writes the error on standard error and returns: whatever is pending on
`validChan`, it receives nothing, prints nothing on standard output and
writes nothing to the file. -/
theorem writeValidResults_open_failure (err : String) (pending : List String)
    (writeErr : Nat → Option String) :
    (writeValidResults (some err) pending writeErr).received = []
    ∧ (writeValidResults (some err) pending writeErr).sink.stdout = []
    ∧ (writeValidResults (some err) pending writeErr).sink.fileWrites = []
    ∧ (writeValidResults (some err) pending writeErr).sink.stderr
        = ["Error opening valid_subdomains.txt: " ++ err ++ "\n"] := by
  simp [writeValidResults, sprintf_open_error]

/-- C6 at the failing inputs: run with no positional argument, or with two,
`main` exits with status 1 without reading the word list, but the usage
message goes to standard output (`fmt.Printf`) and standard error stays
empty. -/
theorem startup_usage_on_stdout :
    ∀ fs : String → Except String (List Char),
      startup ["azure-sub"] fs
          = .exit ["Usage: azure-sub <company_name>\n"] [] 1
      ∧ startup ["azure-sub", "acme", "corp"] fs
          = .exit ["Usage: azure-sub <company_name>\n"] [] 1 := by
  intro fs
  simp only [startup]
  rw [if_pos (by decide), if_pos (by decide)]
  decide

/-! ### The pipeline -/

theorem live_set_same {ws : List WorkerPc} {i : Nat} {a b : WorkerPc}
    (h : ws[i]? = some a) (ha : a.running = true) (hb : b.running = true) :
    live (ws.set i b) = live ws := by
  obtain ⟨hi, hget⟩ := List.getElem?_eq_some.mp h
  have hpos : 0 < List.countP WorkerPc.running ws :=
    List.countP_pos_iff.mpr ⟨a, hget ▸ List.getElem_mem hi, ha⟩
  unfold live
  rw [List.countP_set _ _ _ _ hi, hget, ha, hb]
  simp only [if_true]
  omega

theorem live_set_exited {ws : List WorkerPc} {i : Nat} {a : WorkerPc}
    (h : ws[i]? = some a) (ha : a.running = true) :
    live (ws.set i .exited) + 1 = live ws := by
  obtain ⟨hi, hget⟩ := List.getElem?_eq_some.mp h
  have hpos : 0 < List.countP WorkerPc.running ws :=
    List.countP_pos_iff.mpr ⟨a, hget ▸ List.getElem_mem hi, ha⟩
  unfold live
  rw [List.countP_set _ _ _ _ hi, hget, ha]
  simp only [if_true, WorkerPc.running]
  simp
  omega

theorem live_replicate (n : Nat) : live (List.replicate n WorkerPc.idle) = n := by
  simp [live, List.countP_replicate, WorkerPc.running]

theorem mem_set_sending {ws : List WorkerPc} {i : Nat} {b : WorkerPc} {r : String}
    (h : WorkerPc.sending r ∈ ws.set i b) : WorkerPc.sending r ∈ ws ∨ b = .sending r := by
  rcases List.mem_or_eq_of_mem_set h with h | h
  · exact Or.inl h
  · exact Or.inr h.symm

theorem isResult_checkSubdomain {h r : String} {g : GetResult}
    (hc : checkSubdomain (fun _ => g) h = some r) : IsResult r := by
  cases g with
  | err msg => simp [checkSubdomain] at hc
  | resp code =>
      simp only [checkSubdomain] at hc
      split at hc
      · have := Option.some.inj hc
        subst this
        exact ⟨("ALID] " ++ h ++ " (" ++ toString code ++ ")").data, by
          simp [sprintf_valid, String.data_append]⟩
      · simp at hc

/-- What `main` prints after the loop is a progress line. -/
theorem isProgressLine_progressLine (n : Nat) : isProgressLine (progressLine n) = true := by
  simp [isProgressLine, progressLine, sprintf, sprintfAux, formatVerb]

/-- What the writer prints is not a progress line. -/
theorem isProgressLine_result {r : String} (hr : IsResult r) :
    isProgressLine (r ++ "\n") = false := by
  obtain ⟨t, ht⟩ := hr
  simp [isProgressLine, String.data_append, ht]

theorem inv_initial (n : Nat) (words : List String) (company : String) :
    Inv n (generate baseURLs words company).sent (initial n words company) := by
  constructor <;> simp [initial, live_replicate]

theorem writeResult_stdout (r : String) (w : Option String) (sink : Sink) :
    (writeResult r w sink).stdout = sink.stdout ++ [r ++ "\n"] := by
  cases w <;> rfl

theorem inv_main {n : Nat} {cands : List String} {s t : Pipeline}
    (h : Inv n cands s) (hs : stepMain s = some t) : Inv n cands t := by
  unfold stepMain at hs
  obtain ⟨h1, h2, h3, h4, h5, h6, h7, h8, h9, h10, h11, h12⟩ := h
  split at hs
  · -- generating
    rename_i hpc
    split at hs
    · rename_i subdomain rest htodo
      split at hs
      · cases hs
        simp only [hpc, ne_eq, not_true_eq_false, false_and, iff_false, Bool.not_eq_true,
          if_true] at h6 h12
        constructor <;> simp_all
        omega
      · simp at hs
    · rename_i htodo
      cases hs
      have hcount : s.count = cands.length := by
        rw [h2, ← h1, htodo]; simp
      simp only [hpc, ne_eq, not_true_eq_false, false_and, iff_false, Bool.not_eq_true,
          if_true] at h6 h12
      have hline : List.filter isProgressLine [progressLine cands.length]
          = [progressLine cands.length] := by
        simp [List.filter_cons, isProgressLine_progressLine]
      constructor <;> simp_all
  · rename_i hpc
    cases hs
    constructor <;> simp_all
  · rename_i hpc
    split at hs
    · cases hs
      constructor <;> simp_all
    · simp at hs
  · rename_i hpc
    cases hs
    constructor <;> simp_all
  · rename_i hpc
    split at hs
    · cases hs
      constructor <;> simp_all
    · simp at hs
  · simp at hs

theorem send_results_set {ws : List WorkerPc} {i : Nat} {b : WorkerPc}
    (h : ∀ r, WorkerPc.sending r ∈ ws → IsResult r)
    (hb : ∀ r, b = .sending r → IsResult r) :
    ∀ r, WorkerPc.sending r ∈ ws.set i b → IsResult r := by
  intro r hr
  rcases mem_set_sending hr with hr | hr
  · exact h r hr
  · exact hb r hr

theorem inv_step {n : Nat} {cands : List String} {s t : Pipeline} (e : Event)
    (h : Inv n cands s) (hs : step e s = some t) : Inv n cands t := by
  cases e with
  | main => exact inv_main h hs
  | workerNext i =>
      obtain ⟨h1, h2, h3, h4, h5, h6, h7, h8, h9, h10, h11, h12⟩ := h
      simp only [step] at hs
      split at hs
      · rename_i hw
        split at hs
        · rename_i subdomain rest hjobs
          cases hs
          have hlive := live_set_same (b := .inGet subdomain) hw rfl rfl
          have hsend := send_results_set (i := i) (b := .inGet subdomain) h11
            (by intro r hr; cases hr)
          constructor <;> simp_all
        · rename_i hjobs
          split at hs
          · rename_i hclosed
            cases hs
            have hlive := live_set_exited hw rfl
            have hlive2 : live s.workers - 1 = live (s.workers.set i .exited) := by omega
            have hsend := send_results_set (i := i) (b := .exited) h11
              (by intro r hr; cases hr)
            constructor <;> simp_all
          · simp at hs
      · simp at hs
  | workerGot i r =>
      obtain ⟨h1, h2, h3, h4, h5, h6, h7, h8, h9, h10, h11, h12⟩ := h
      simp only [step] at hs
      split at hs
      · rename_i subdomain hw
        split at hs
        · rename_i validResult hcheck
          cases hs
          have hlive := live_set_same (b := .sending validResult) hw rfl rfl
          have hsend := send_results_set (i := i) (b := .sending validResult) h11
            (by intro r hr; cases hr; exact isResult_checkSubdomain hcheck)
          constructor <;> simp_all
        · cases hs
          have hlive := live_set_same (b := .idle) hw rfl rfl
          have hsend := send_results_set (i := i) (b := .idle) h11
            (by intro r hr; cases hr)
          constructor <;> simp_all
      · simp at hs
  | workerSent i =>
      obtain ⟨h1, h2, h3, h4, h5, h6, h7, h8, h9, h10, h11, h12⟩ := h
      simp only [step] at hs
      split at hs
      · rename_i validResult hw
        split at hs
        · cases hs
          have hlive := live_set_same (b := .idle) hw rfl rfl
          have hsend := send_results_set (i := i) (b := .idle) h11
            (by intro r hr; cases hr)
          have hres : IsResult validResult := by
            obtain ⟨hi, hget⟩ := List.getElem?_eq_some.mp hw
            exact h11 _ (hget ▸ List.getElem_mem hi)
          have hchan : ∀ r, r ∈ s.validChan ∨ r = validResult → IsResult r := by
            rintro r (hr | rfl)
            · exact h10 r hr
            · exact hres
          constructor <;> simp_all
        · simp at hs
      · simp at hs
  | writerOpen err =>
      obtain ⟨h1, h2, h3, h4, h5, h6, h7, h8, h9, h10, h11, h12⟩ := h
      simp only [step] at hs
      split at hs
      · split at hs
        · cases hs
          constructor <;> simp_all
        · cases hs
          constructor <;> simp_all
      · simp at hs
  | writerNext w =>
      obtain ⟨h1, h2, h3, h4, h5, h6, h7, h8, h9, h10, h11, h12⟩ := h
      simp only [step] at hs
      split at hs
      · split at hs
        · rename_i result rest hchan
          cases hs
          have hres : IsResult result := h10 _ (by rw [hchan]; exact List.mem_cons_self _ _)
          have hnp := isProgressLine_result hres
          constructor <;> simp_all [writeResult_stdout, List.filter_append]
        · split at hs
          · cases hs
            constructor <;> simp_all
          · simp at hs
      · simp at hs

theorem reachable_inv {n : Nat} {words : List String} {company : String} {s : Pipeline}
    (hr : Reachable n words company s) : Inv n (generate baseURLs words company).sent s := by
  induction hr with
  | start => exact inv_initial n words company
  | next e _ hstep ih => exact inv_step e ih hstep

theorem reachable_run {n : Nat} {words : List String} {company : String}
    (es : List Event) {s d : Pipeline}
    (hs : Reachable n words company s) (hd : Reachable n words company d) :
    Reachable n words company ((run es s).getD d) := by
  induction es generalizing s with
  | nil => simpa [run] using hs
  | cons e es ih =>
      simp only [run]
      cases hstep : step e s with
      | none => simpa using hd
      | some t => exact ih (Reachable.next e hs hstep)

theorem reachable_stateAfter (n : Nat) (words : List String) (company : String)
    (es : List Event) : Reachable n words company (stateAfter n words company es) :=
  reachable_run es Reachable.start Reachable.start

theorem stuck_sound {s : Pipeline} (h : stuck s = true) (e : Event) : step e s = none := by
  simp only [stuck, Bool.and_eq_true] at h
  obtain ⟨⟨hmain, hworkers⟩, hwriter⟩ := h
  have hall := List.all_eq_true.mp hworkers
  have hget : ∀ (i : Nat) (w : WorkerPc), s.workers[i]? = some w → w ∈ s.workers := by
    intro i w hw
    obtain ⟨hi, hget⟩ := List.getElem?_eq_some.mp hw
    exact hget ▸ List.getElem_mem hi
  cases e with
  | main => simpa [step] using hmain
  | workerNext i =>
      simp only [step]
      split
      · rename_i hw
        have := hall _ (hget _ _ hw)
        simp at this
        simp [this]
      · rfl
  | workerGot i r =>
      simp only [step]
      split
      · rename_i hw
        have := hall _ (hget _ _ hw)
        simp at this
      · rfl
  | workerSent i =>
      simp only [step]
      split
      · rename_i hw
        have := hall _ (hget _ _ hw)
        simp at this
        rw [if_neg]
        intro hc
        rcases this with h1 | h1
        · omega
        · simp [hc.2] at h1
      · rfl
  | writerOpen err =>
      simp only [step]
      split
      · rename_i hw
        simp [hw] at hwriter
      · rfl
  | writerNext w =>
      simp only [step]
      split
      · rename_i hw
        simp [hw] at hwriter
        simp [hwriter]
      · rfl

theorem candidates_length (words : List String) (company : String) :
    (generate baseURLs words company).sent.length = 6 * words.length * 4 := by
  rw [generate_eq, specCandidates_length]
  have hb : baseURLs.length = 6 := rfl
  rw [hb]; ring

/-- The progress line is printed once, on leaving the generation loop: in
every state the pipeline reaches, standard output holds at most one progress
line (whatever its number); none while `main` is in the generation loop; and
once `main` has left the loop, in particular whenever `jobs` is closed,
exactly the line `[*] Testing <6*|words|*4> subdomains...`, every candidate
having been sent on `jobs` by then. -/
theorem progress_after_generation (n : Nat) (words : List String) (company : String)
    (s : Pipeline) (hr : Reachable n words company s) :
    (s.sink.stdout.filter isProgressLine).length ≤ 1
    ∧ (s.mainPc = .generating → s.sink.stdout.filter isProgressLine = [])
    ∧ (s.mainPc ≠ .generating →
        s.sink.stdout.filter isProgressLine = [progressLine (6 * words.length * 4)]
        ∧ s.todo = []
        ∧ s.probes ++ s.jobs = (generate baseURLs words company).sent)
    ∧ (s.jobsClosed = true →
        s.sink.stdout.filter isProgressLine = [progressLine (6 * words.length * 4)]) := by
  have hinv := reachable_inv hr
  have hp := hinv.progress
  rw [candidates_length] at hp
  have hgen : s.mainPc ≠ .generating →
      s.sink.stdout.filter isProgressLine = [progressLine (6 * words.length * 4)]
        ∧ s.todo = []
        ∧ s.probes ++ s.jobs = (generate baseURLs words company).sent := by
    intro hne
    have htodo := hinv.todo_pc hne
    refine ⟨by rw [hp, if_neg hne], htodo, ?_⟩
    have := hinv.conserve
    rw [htodo, List.append_nil] at this
    exact this
  refine ⟨?_, ?_, hgen, ?_⟩
  · rw [hp]; split <;> simp
  · intro hg
    rw [hp, if_pos hg]
  · intro hc
    exact (hgen (hinv.closed_pc.mp hc).1).1

/-- The progress line at the end of a complete run with one word. -/
theorem progress_after_generation_witness :
    (stateAfter numWorkers ["admin"] "acme" completeTrace).mainPc ≠ .generating
    ∧ (stateAfter numWorkers ["admin"] "acme" completeTrace).sink.stdout.filter isProgressLine
        = [progressLine (6 * 1 * 4)] :=
  ⟨by decide,
   ((progress_after_generation numWorkers ["admin"] "acme" _
      (reachable_stateAfter numWorkers ["admin"] "acme" completeTrace)).2.2.1 (by decide)).1⟩

/-- C7 at the failing input: with the word `admin` and the company `acme` the
pipeline reaches a state in which `checkSubdomain` has been called on the
first candidate, and its result line is on standard output, while `main` is
still in the generation loop and no progress line has been printed. -/
theorem probe_before_progress :
    ∃ s, Reachable numWorkers ["admin"] "acme" s
      ∧ s.mainPc = .generating
      ∧ s.probes = ["admin-acme.azurewebsites.net"]
      ∧ s.sink.stdout = ["[VALID] admin-acme.azurewebsites.net (200)\n"]
      ∧ s.sink.stdout.filter isProgressLine = []
      ∧ progressLine (6 * 1 * 4) ∉ s.sink.stdout :=
  ⟨stateAfter numWorkers ["admin"] "acme" earlyProbeTrace,
   reachable_stateAfter _ _ _ _, by decide, by decide, by decide, by decide, by decide⟩

theorem writerInv_initial (n : Nat) (words : List String) (company : String) :
    WriterInv (initial n words company) := by
  simp [WriterInv, initial]

theorem writerInv_step {s t : Pipeline} (e : Event) (h : WriterInv s)
    (hs : step e s = some t) : WriterInv t := by
  unfold WriterInv at h ⊢
  cases e with
  | main =>
      simp only [step, stepMain] at hs
      split at hs
      · split at hs
        · split at hs
          · cases hs; exact h
          · simp at hs
        · cases hs; exact h
      · cases hs; exact h
      · split at hs
        · cases hs; exact h
        · simp at hs
      · cases hs; exact h
      · split at hs
        · cases hs; exact h
        · simp at hs
      · simp at hs
  | workerNext i =>
      simp only [step] at hs
      split at hs
      · split at hs
        · cases hs; exact h
        · split at hs
          · cases hs; exact h
          · simp at hs
      · simp at hs
  | workerGot i r =>
      simp only [step] at hs
      split at hs
      · split at hs
        · cases hs; exact h
        · cases hs; exact h
      · simp at hs
  | workerSent i =>
      simp only [step] at hs
      split at hs
      · split at hs
        · cases hs; exact h
        · simp at hs
      · simp at hs
  | writerOpen err =>
      simp only [step] at hs
      split at hs
      · rename_i hw
        rw [hw] at h
        split at hs
        · cases hs; simp at h ⊢; omega
        · cases hs; simpa using h
      · simp at hs
  | writerNext w =>
      simp only [step] at hs
      split at hs
      · rename_i hw
        rw [hw] at h
        split at hs
        · cases hs; simpa [hw] using h
        · split at hs
          · cases hs; simp at h ⊢; omega
          · simp at hs
      · simp at hs

theorem reachable_writerInv {n : Nat} {words : List String} {company : String} {s : Pipeline}
    (hr : Reachable n words company s) : WriterInv s := by
  induction hr with
  | start => exact writerInv_initial n words company
  | next e _ hstep ih => exact writerInv_step e ih hstep

theorem weight_set {ws : List WorkerPc} {i : Nat} {a : WorkerPc} (b : WorkerPc)
    (h : ws[i]? = some a) :
    ((ws.set i b).map WorkerPc.weight).sum + a.weight
      = (ws.map WorkerPc.weight).sum + b.weight := by
  induction ws generalizing i with
  | nil => simp at h
  | cons w ws ih =>
      cases i with
      | zero =>
          simp at h
          subst h
          simp
          omega
      | succ i =>
          simp at h
          have := ih h
          simp only [List.set_cons_succ, List.map_cons, List.sum_cons]
          omega

/-- Every event lowers `stepsLeft`. -/
theorem stepsLeft_step {s t : Pipeline} (e : Event) (hs : step e s = some t) :
    stepsLeft t < stepsLeft s := by
  cases e with
  | main =>
      simp only [step, stepMain] at hs
      split at hs
      · rename_i hpc
        split at hs
        · rename_i hd tl htodo
          split at hs
          · cases hs; simp [stepsLeft, htodo]; omega
          · simp at hs
        · cases hs; simp [stepsLeft, hpc, MainPc.weight]
      · rename_i hpc
        cases hs; simp [stepsLeft, hpc, MainPc.weight]
      · rename_i hpc
        split at hs
        · cases hs; simp [stepsLeft, hpc, MainPc.weight]
        · simp at hs
      · rename_i hpc
        cases hs; simp [stepsLeft, hpc, MainPc.weight]
      · rename_i hpc
        split at hs
        · cases hs; simp [stepsLeft, hpc, MainPc.weight]
        · simp at hs
      · simp at hs
  | workerNext i =>
      simp only [step] at hs
      split at hs
      · rename_i hw
        split at hs
        · rename_i hd tl hjobs
          cases hs
          have := weight_set (.inGet hd) hw
          simp [stepsLeft, hjobs, WorkerPc.weight] at this ⊢
          omega
        · split at hs
          · cases hs
            have := weight_set .exited hw
            simp [stepsLeft, WorkerPc.weight] at this ⊢
            omega
          · simp at hs
      · simp at hs
  | workerGot i r =>
      simp only [step] at hs
      split at hs
      · rename_i subdomain hw
        split at hs
        · rename_i v hc
          cases hs
          have := weight_set (.sending v) hw
          simp [stepsLeft, WorkerPc.weight] at this ⊢
          omega
        · cases hs
          have := weight_set .idle hw
          simp [stepsLeft, WorkerPc.weight] at this ⊢
          omega
      · simp at hs
  | workerSent i =>
      simp only [step] at hs
      split at hs
      · rename_i v hw
        split at hs
        · cases hs
          have := weight_set .idle hw
          simp [stepsLeft, WorkerPc.weight] at this ⊢
          omega
        · simp at hs
      · simp at hs
  | writerOpen err =>
      simp only [step] at hs
      split at hs
      · rename_i hw
        split at hs
        · cases hs; simp [stepsLeft, hw, WriterPc.weight]
        · cases hs; simp [stepsLeft, hw, WriterPc.weight]
      · simp at hs
  | writerNext w =>
      simp only [step] at hs
      split at hs
      · rename_i hw
        split at hs
        · rename_i hd tl hchan
          cases hs; simp [stepsLeft, hchan]
        · split at hs
          · cases hs; simp [stepsLeft, hw, WriterPc.weight]
          · simp at hs
      · simp at hs

/-- Every run is finite: it has at most `stepsLeft s` events. -/
theorem run_length_le (es : List Event) {s t : Pipeline} (h : run es s = some t) :
    es.length + stepsLeft t ≤ stepsLeft s := by
  induction es generalizing s with
  | nil =>
      simp [run] at h
      subst h
      simp
  | cons e es ih =>
      simp only [run] at h
      cases hstep : step e s with
      | none => simp [hstep] at h
      | some u =>
          rw [hstep] at h
          have h1 := ih h
          have h2 := stepsLeft_step e hstep
          simp only [List.length_cons]
          omega

theorem moves_of_isSome {s : Pipeline} (e : Event) (h : (step e s).isSome = true) :
    ∃ e t, step e s = some t :=
  ⟨e, Option.isSome_iff_exists.mp h⟩

theorem exists_running {ws : List WorkerPc} (h : 0 < live ws) :
    ∃ (i : Nat) (w : WorkerPc), ws[i]? = some w ∧ w.running = true := by
  obtain ⟨w, hw, hrun⟩ := List.countP_pos_iff.mp h
  obtain ⟨i, hi⟩ := List.mem_iff_getElem?.mp hw
  exact ⟨i, w, hi, hrun⟩

/-- A worker that has not returned can move, or the writer can, as long as
`jobs` holds a candidate or is closed, `validChan` is open and the writer has
not returned. -/
theorem worker_or_writer_moves {s : Pipeline} {i : Nat} {w : WorkerPc}
    (hw : s.workers[i]? = some w) (hrun : w.running = true)
    (hjobs : s.jobs ≠ [] ∨ s.jobsClosed = true) (hopen : s.validClosed = false)
    (hwriter : s.writer ≠ .exited) :
    ∃ e t, step e s = some t := by
  cases w with
  | idle =>
      cases hj : s.jobs with
      | nil =>
          have hc : s.jobsClosed = true := by
            rcases hjobs with h | h
            · exact absurd hj h
            · exact h
          exact moves_of_isSome (.workerNext i) (by simp [step, hw, hj, hc])
      | cons hd tl => exact moves_of_isSome (.workerNext i) (by simp [step, hw, hj])
  | inGet subdomain =>
      exact moves_of_isSome (.workerGot i (.err "timeout")) (by simp [step, hw, checkSubdomain])
  | sending v =>
      by_cases hlen : s.validChan.length < validCapacity
      · exact moves_of_isSome (.workerSent i) (by simp [step, hw, hlen, hopen])
      · cases hwr : s.writer with
        | opening => exact moves_of_isSome (.writerOpen none) (by simp [step, hwr])
        | ranging =>
            cases hv : s.validChan with
            | nil => simp [hv, validCapacity] at hlen
            | cons hd tl => exact moves_of_isSome (.writerNext none) (by simp [step, hwr, hv])
        | exited => exact absurd hwr hwriter
  | exited => simp [WorkerPc.running] at hrun

/-- As long as the writer has not returned before `validChan` is closed (that
is, unless `os.OpenFile` failed), the pipeline with at least one worker is
never stuck before `main` ends: some goroutine can move. -/
theorem moves_unless_writer_gone (n : Nat) (words : List String) (company : String)
    (s : Pipeline) (hn : 1 ≤ n) (hr : Reachable n words company s)
    (hwriter : s.writer = .exited → s.validClosed = true) (hdone : s.mainPc ≠ .done) :
    ∃ e t, step e s = some t := by
  have hinv := reachable_inv hr
  have hwinv : s.writerWg = if s.writer = .exited then 0 else 1 := reachable_writerInv hr
  cases hpc : s.mainPc with
  | generating =>
      cases htodo : s.todo with
      | nil => exact moves_of_isSome (.main) (by simp [step, stepMain, hpc, htodo])
      | cons hd tl =>
          by_cases hlen : s.jobs.length < jobsCapacity
          · exact moves_of_isSome (.main) (by simp [step, stepMain, hpc, htodo, hlen])
          · have hjobs : s.jobs ≠ [] := by
              intro h
              simp [h, jobsCapacity] at hlen
            have hopen : s.validClosed = false := by
              cases hv : s.validClosed with
              | false => rfl
              | true =>
                  have := hinv.vclosed_pc.mp hv
                  simp [hpc] at this
            have hlive : 0 < live s.workers := by
              by_contra hz
              have hwg : s.wg < n := by rw [hinv.wg_eq]; omega
              exact hjobs (hinv.drained hwg).1
            obtain ⟨i, w, hw, hrun⟩ := exists_running hlive
            exact worker_or_writer_moves hw hrun (Or.inl hjobs) hopen
              (fun h => by simp [hwriter h] at hopen)
  | closeJobs => exact moves_of_isSome (.main) (by simp [step, stepMain, hpc])
  | waitWorkers =>
      by_cases hwg : s.wg = 0
      · exact moves_of_isSome (.main) (by simp [step, stepMain, hpc, hwg])
      · have hopen : s.validClosed = false := by
          cases hv : s.validClosed with
          | false => rfl
          | true =>
              have := hinv.vclosed_pc.mp hv
              simp [hpc] at this
        have hclosed : s.jobsClosed = true := hinv.closed_pc.mpr (by simp [hpc])
        have hlive : 0 < live s.workers := by rw [← hinv.wg_eq]; omega
        obtain ⟨i, w, hw, hrun⟩ := exists_running hlive
        exact worker_or_writer_moves hw hrun (Or.inr hclosed) hopen
          (fun h => by simp [hwriter h] at hopen)
  | closeValid => exact moves_of_isSome (.main) (by simp [step, stepMain, hpc])
  | waitWriter =>
      have hvc : s.validClosed = true := hinv.vclosed_pc.mpr (Or.inl hpc)
      cases hwr : s.writer with
      | opening => exact moves_of_isSome (.writerOpen none) (by simp [step, hwr])
      | ranging =>
          cases hv : s.validChan with
          | nil => exact moves_of_isSome (.writerNext none) (by simp [step, hwr, hv, hvc])
          | cons hd tl => exact moves_of_isSome (.writerNext none) (by simp [step, hwr, hv])
      | exited =>
          have hz : s.writerWg = 0 := by simpa [hwr] using hwinv
          exact moves_of_isSome (.main) (by simp [step, stepMain, hpc, hz])
  | done => exact absurd hpc hdone

set_option maxRecDepth 100000 in
/-- C9 at the failing input: with the 50 workers, five words (120 candidates),
every probe answered with 200 and `valid_subdomains.txt` not opened, the
pipeline reaches a state in which the writer has returned, `validChan` is
full, 20 workers are blocked at their send, `main` is blocked in `wg.Wait()`,
and no goroutine can move. -/
theorem open_failure_deadlock :
    ∃ s, Reachable numWorkers fiveWords "acme" s
      ∧ s.mainPc = .waitWorkers
      ∧ s.wg = 20
      ∧ s.writer = .exited
      ∧ s.validChan.length = validCapacity
      ∧ (∃ r, WorkerPc.sending r ∈ s.workers)
      ∧ ∀ e, step e s = none := by
  have hstuck : stuck (stateAfter numWorkers fiveWords "acme" deadlockTrace) = true := by
    decide
  refine ⟨stateAfter numWorkers fiveWords "acme" deadlockTrace,
    reachable_stateAfter _ _ _ _, by decide, by decide, by decide, by decide, ?_,
    stuck_sound hstuck⟩
  exact ⟨"[VALID] api-acme.scm.azurewebsites.net (200)", by decide⟩

end AzureSub
